import Mathlib

set_option linter.unusedSectionVars false

/-
Verification development for the circuit-generation engine of
`mzm-generation/experiment.py` (class `KitaevHamiltonianExperiment`).

The Python source is shallowly embedded as pure Lean functions.  Coupling
values (Python floats) are modelled by an abstract type `R` with decidable
equality, and measurement labels (Pauli strings produced by the external
function `measurement_pauli_strings`) by an abstract type `L`; the engine
never inspects either, it only passes them around and compares them.

The external collaborators imported by `experiment.py`
(`kitaev_hamiltonian`, `diagonalizing_bogoliubov_transform`,
`FermionicGaussianState`, `measure_pauli_string`,
`measurement_pauli_strings`) are not part of the given source; they are
modelled from the specification as symbolic constructors with the
validation behaviour the specification assigns to them.

Mutable state (the `functools.lru_cache` on `_base_circuit`) is made
explicit: every method that may touch the cache takes the experiment
object and returns the updated object.  Two ghost logs (`hamLog`,
`prepLog`) record the invocations of the Hamiltonian builder and of the
state preparer, so that the invocation-counting properties of the
specification can be stated.
-/

/-- The `CircuitParameters` namedtuple of `experiment.py`. -/
structure CircuitParameters (R L : Type) where
  tunneling : R
  superconducting : R
  chemical_potential : R
  occupied_orbitals : List Nat
  measurement_basis : String
  measurement_label : L
deriving DecidableEq, Repr

/-- Modelled from the spec: the Bogoliubov-de Gennes Hamiltonian matrix is a
pure symbolic function of the mode count and the three couplings
(`kitaev_hamiltonian` is imported by `experiment.py` but its source is not
given; section 4.1 of the spec makes it a pure, deterministic function of
its four inputs). -/
inductive HamiltonianMatrix (R : Type) where
  | kitaev (n : Nat) (tunneling superconducting chemical_potential : R)
deriving DecidableEq, Repr

/-- Modelled from the spec: the diagonalizing transformation matrix is a
pure symbolic function of the Hamiltonian (section 4.2; the source of
`diagonalizing_bogoliubov_transform` is not given). -/
inductive TransformationMatrix (R : Type) where
  | bogoliubov (h : HamiltonianMatrix R)
deriving DecidableEq, Repr

/-- Symbolic gate content of a quantum circuit: a fermionic Gaussian
state-preparation block, optionally followed by measurement layers. -/
inductive CircuitOps (R L : Type) where
  | gaussianState (tm : TransformationMatrix R) (occupied_orbitals : List Nat)
  | measured (base : CircuitOps R L) (label : L)
deriving DecidableEq, Repr

/-- A quantum circuit: symbolic gate content plus the mutable `metadata`
attribute that `experiment.py` assigns. -/
structure QuantumCircuit (R L : Type) where
  ops : CircuitOps R L
  metadata : Option (CircuitParameters R L)
deriving DecidableEq, Repr

/-- The error taxonomy of spec section 7 (the errors are raised by the
external collaborators, whose source is not given; modelled from the spec). -/
inductive GenError (R L : Type) where
  | invalidParameter (n : Nat)
  | invalidOccupation (occupied_orbitals : List Nat) (n : Nat)
  | invalidLabel (label : L)
deriving DecidableEq, Repr

/-- Decidable equality for `Except` results, so that concrete runs of the
fallible pipeline can be checked by evaluation. -/
def Except.decEq {ε α : Type} [DecidableEq ε] [DecidableEq α] :
    (x y : Except ε α) → Decidable (x = y)
  | .error a, .error b =>
    if h : a = b then isTrue (congrArg Except.error h)
    else isFalse (fun hc => h (Except.error.inj hc))
  | .error _, .ok _ => isFalse (fun hc => Except.noConfusion hc)
  | .ok _, .error _ => isFalse (fun hc => Except.noConfusion hc)
  | .ok a, .ok b =>
    if h : a = b then isTrue (congrArg Except.ok h)
    else isFalse (fun hc => h (Except.ok.inj hc))

instance {ε α : Type} [DecidableEq ε] [DecidableEq α] : DecidableEq (Except ε α) :=
  Except.decEq

/-- Modelled from the spec: `kitaev_hamiltonian(n_modes, ...)` builds the
Hamiltonian matrix; section 4.1: fails with `InvalidParameterError` if
`n < 1`, otherwise a pure function of its four inputs. -/
def kitaev_hamiltonian {R L : Type} (n : Nat) (tunneling superconducting chemical_potential : R) :
    Except (GenError R L) (HamiltonianMatrix R) :=
  if n < 1 then .error (.invalidParameter n)
  else .ok (.kitaev n tunneling superconducting chemical_potential)

/-- Modelled from the spec: `hamiltonian.diagonalizing_bogoliubov_transform()`
returns the transformation matrix (the Python call returns a triple whose
last two components `experiment.py` discards; only the matrix is modelled).
On the symbolic Hamiltonians of this model the expected block structure
always holds, so `DiagonalizationError` never arises. -/
def diagonalizing_bogoliubov_transform {R L : Type} (h : HamiltonianMatrix R) :
    Except (GenError R L) (TransformationMatrix R) :=
  .ok (.bogoliubov h)

/-- Mode count carried by a transformation matrix (the dimension of the
underlying Hamiltonian). -/
def TransformationMatrix.n_modes {R : Type} : TransformationMatrix R → Nat
  | .bogoliubov (.kitaev n _ _ _) => n

/-- Modelled from the spec: `FermionicGaussianState(transformation_matrix,
occupied_orbitals)` synthesizes the state-preparation circuit; section 4.3:
fails with `InvalidOccupationError` if any index is out of range or
duplicated. -/
def FermionicGaussianState {R L : Type} (tm : TransformationMatrix R)
    (occupied_orbitals : List Nat) : Except (GenError R L) (QuantumCircuit R L) :=
  if occupied_orbitals.all (fun j => j < tm.n_modes) && occupied_orbitals.Nodup
  then .ok { ops := .gaussianState tm occupied_orbitals, metadata := none }
  else .error (.invalidOccupation occupied_orbitals tm.n_modes)

/-- Modelled from the spec: `measure_pauli_string(base_circuit, label)`
returns a new circuit equal to the base followed by the basis-rotation and
measurement layer for the label (section 4.4, non-mutating). -/
def measure_pauli_string {R L : Type} (c : QuantumCircuit R L) (label : L) :
    QuantumCircuit R L :=
  { ops := .measured c.ops label, metadata := c.metadata }

/-! ### The `functools.lru_cache` model

`_base_circuit` is decorated with bare `@functools.lru_cache`, which in
CPython is `lru_cache(maxsize=128)`: a least-recently-used cache holding at
most 128 entries.  A hit moves the key to the most-recent position; a miss
computes, inserts the key at the most-recent position and evicts the least
recently used entry when the bound is exceeded.  Failing calls are not
cached.  The real cache lives on the class function and is keyed by
`(self, args)`; for a single experiment instance used in isolation this is
exactly a per-instance cache, which is what is modelled here. -/

/-- The CPython default `maxsize` of `functools.lru_cache`. -/
def lruMaxsize : Nat := 128

/-- An LRU cache: association list of entries, most recently used first. -/
structure LruCache (κ ν : Type) where
  entries : List (κ × ν)
deriving DecidableEq, Repr

/-- Cache lookup: on a hit return the value and move the key to the front. -/
def LruCache.lookup {κ ν : Type} [DecidableEq κ] (c : LruCache κ ν) (k : κ) :
    Option ν × LruCache κ ν :=
  match c.entries.find? (fun p => decide (p.1 = k)) with
  | some (_, v) => (some v, ⟨(k, v) :: c.entries.filter (fun p => decide (p.1 ≠ k))⟩)
  | none => (none, c)

/-- Cache insertion after a miss: new entry in front, truncated to the
capacity `lruMaxsize` (evicting least recently used entries). -/
def LruCache.insert {κ ν : Type} (c : LruCache κ ν) (k : κ) (v : ν) : LruCache κ ν :=
  ⟨((k, v) :: c.entries).take lruMaxsize⟩

/-- The keys currently held by the cache, most recently used first. -/
def LruCache.keys {κ ν : Type} (c : LruCache κ ν) : List κ :=
  c.entries.map Prod.fst

/-- The cache key of `_base_circuit` for one experiment instance:
the argument tuple `(tunneling, superconducting, chemical_potential,
occupied_orbitals)` compared by exact value equality. -/
abbrev BaseKey (R : Type) := R × R × R × List Nat

/-! ### The experiment object -/

/-- The `KitaevHamiltonianExperiment` object: the attributes set in
`__init__`, the `lru_cache` state of `_base_circuit`, and two ghost logs
recording, in call order, the invocations of the Hamiltonian builder and
of the state preparer (for the invocation-counting properties of spec
section 8). -/
structure KitaevHamiltonianExperiment (R L : Type) where
  experiment_id : String
  qubits : List Nat
  tunneling_values : List R
  superconducting_values : List R
  chemical_potential_values : List R
  occupied_orbitals_list : List (List Nat)
  base_circuit_cache : LruCache (BaseKey R) (QuantumCircuit R L)
  hamLog : List (R × R × R)
  prepLog : List (BaseKey R)
deriving DecidableEq, Repr

namespace KitaevHamiltonianExperiment

variable {R L : Type} [DecidableEq R] [DecidableEq L]

/-- Python: `self.n_modes = len(qubits)`. -/
def n_modes (e : KitaevHamiltonianExperiment R L) : Nat := e.qubits.length

/-- Method `circuit_parameters`: the nested `itertools.product` loop of
`experiment.py` lines 89-109, with the label loop innermost and
`measurement_basis` always the literal `"pauli"`.  The label enumeration
`mps` stands for the external `measurement_pauli_strings`. -/
def circuit_parameters (mps : Nat → List L) (e : KitaevHamiltonianExperiment R L) :
    List (CircuitParameters R L) :=
  e.tunneling_values.flatMap fun tunneling =>
    e.superconducting_values.flatMap fun superconducting =>
      e.chemical_potential_values.flatMap fun chemical_potential =>
        e.occupied_orbitals_list.flatMap fun occupied_orbitals =>
          (mps e.n_modes).map fun pauli_string =>
            { tunneling := tunneling
              superconducting := superconducting
              chemical_potential := chemical_potential
              occupied_orbitals := occupied_orbitals
              measurement_basis := "pauli"
              measurement_label := pauli_string }

/-- Method `_base_circuit`: consult the lru cache; on a miss run the body
(lines 80-87: build the Hamiltonian, diagonalize, synthesize the Gaussian
state) and cache a successful result.  Returns the outcome together with
the updated object. -/
def base_circuit (e : KitaevHamiltonianExperiment R L)
    (tunneling superconducting chemical_potential : R) (occupied_orbitals : List Nat) :
    Except (GenError R L) (QuantumCircuit R L) × KitaevHamiltonianExperiment R L :=
  match e.base_circuit_cache.lookup
      (tunneling, superconducting, chemical_potential, occupied_orbitals) with
  | (some c, cache2) => (.ok c, { e with base_circuit_cache := cache2 })
  | (none, _) =>
    match kitaev_hamiltonian e.n_modes tunneling superconducting chemical_potential with
    | .error err =>
      (.error err,
       { e with hamLog := e.hamLog ++ [(tunneling, superconducting, chemical_potential)] })
    | .ok h =>
      match diagonalizing_bogoliubov_transform h with
      | .error err =>
        (.error err,
         { e with hamLog := e.hamLog ++ [(tunneling, superconducting, chemical_potential)] })
      | .ok tm =>
        match FermionicGaussianState tm occupied_orbitals with
        | .error err =>
          (.error err,
           { e with
               hamLog := e.hamLog ++ [(tunneling, superconducting, chemical_potential)]
               prepLog := e.prepLog ++
                 [(tunneling, superconducting, chemical_potential, occupied_orbitals)] })
        | .ok circ =>
          (.ok circ,
           { e with
               hamLog := e.hamLog ++ [(tunneling, superconducting, chemical_potential)]
               prepLog := e.prepLog ++
                 [(tunneling, superconducting, chemical_potential, occupied_orbitals)]
               base_circuit_cache := e.base_circuit_cache.insert
                 (tunneling, superconducting, chemical_potential, occupied_orbitals) circ })

/-- Method `_generate_circuit` (lines 58-70): resolve the base circuit, then, when
the basis is the string `"pauli"`, append the measurement layer, set the
metadata to the parameter record and return the circuit; any other basis
falls off the end of the Python function, which returns `None` (modelled
by `Option`). -/
def generate_circuit (e : KitaevHamiltonianExperiment R L) (cp : CircuitParameters R L) :
    Except (GenError R L) (Option (QuantumCircuit R L)) × KitaevHamiltonianExperiment R L :=
  match e.base_circuit cp.tunneling cp.superconducting cp.chemical_potential cp.occupied_orbitals with
  | (.error err, e1) => (.error err, e1)
  | (.ok base, e1) =>
    if cp.measurement_basis = "pauli" then
      (.ok (some { measure_pauli_string base cp.measurement_label with metadata := some cp }), e1)
    else
      (.ok none, e1)

/-- Run of the `_circuits` generator over a list of parameter records:
elements yielded so far, the exception (if one was raised, terminating the
generator), and the updated object.  An exception is raised at the failing
record, after the earlier elements were already yielded. -/
def runGen (e : KitaevHamiltonianExperiment R L) :
    List (CircuitParameters R L) →
    List (Option (QuantumCircuit R L)) × Option (GenError R L) × KitaevHamiltonianExperiment R L
  | [] => ([], none, e)
  | cp :: rest =>
    match e.generate_circuit cp with
    | (.error err, e1) => ([], some err, e1)
    | (.ok c, e1) =>
      match runGen e1 rest with
      | (ys, err, e2) => (c :: ys, err, e2)

/-- Method `circuits()` (lines 51-52): `list(self._circuits())`.  Forcing the whole
generator: if any record raises, the exception propagates out of `list`
and the partial elements are discarded. -/
def circuits (mps : Nat → List L) (e : KitaevHamiltonianExperiment R L) :
    Except (GenError R L) (List (Option (QuantumCircuit R L))) × KitaevHamiltonianExperiment R L :=
  match runGen e (e.circuit_parameters mps) with
  | (ys, none, e1) => (.ok ys, e1)
  | (_, some err, e1) => (.error err, e1)

/-- The constructor-time configuration of the experiment (the attributes
assigned in `__init__` that `circuit_parameters` reads). -/
def config (e : KitaevHamiltonianExperiment R L) :
    String × List Nat × List R × List R × List R × List (List Nat) :=
  (e.experiment_id, e.qubits, e.tunneling_values, e.superconducting_values,
    e.chemical_potential_values, e.occupied_orbitals_list)

end KitaevHamiltonianExperiment

/-- The `_base_circuit` argument tuple determined by one parameter record. -/
def CircuitParameters.key {R L : Type} (cp : CircuitParameters R L) : BaseKey R :=
  (cp.tunneling, cp.superconducting, cp.chemical_potential, cp.occupied_orbitals)

/-- The parameter record built from a `_base_circuit` argument tuple and a
measurement label, exactly as `circuit_parameters` yields it. -/
def recOf {R L : Type} (k : BaseKey R) (lab : L) : CircuitParameters R L :=
  { tunneling := k.1
    superconducting := k.2.1
    chemical_potential := k.2.2.1
    occupied_orbitals := k.2.2.2
    measurement_basis := "pauli"
    measurement_label := lab }

/-- The coupling triple of a `_base_circuit` argument tuple. -/
def tripleOf {R : Type} (k : BaseKey R) : R × R × R := (k.1, k.2.1, k.2.2.1)

/-- The occupation pattern of a `_base_circuit` argument tuple. -/
def occOf {R : Type} (k : BaseKey R) : List Nat := k.2.2.2

/-- The cross-product of the four swept axes in the order of
`itertools.product`: the list of `_base_circuit` argument tuples, each
appearing once per position in the product. -/
def tupleList {R L : Type} (e : KitaevHamiltonianExperiment R L) : List (BaseKey R) :=
  e.tunneling_values.flatMap fun tunneling =>
    e.superconducting_values.flatMap fun superconducting =>
      e.chemical_potential_values.flatMap fun chemical_potential =>
        e.occupied_orbitals_list.map fun occupied_orbitals =>
          (tunneling, superconducting, chemical_potential, occupied_orbitals)

/-- A valid occupation pattern for `n` modes: all indices in range and no
duplicates (spec section 3). -/
def validOcc (n : Nat) (occ : List Nat) : Prop := (∀ j ∈ occ, j < n) ∧ occ.Nodup

instance (n : Nat) (occ : List Nat) : Decidable (validOcc n occ) := by
  unfold validOcc; infer_instance

/-- The circuit that a `_base_circuit` cache miss constructs for an
experiment with mode count `n` (Hamiltonian, transformation, Gaussian
state, all symbolic). -/
def gaussCirc {R L : Type} (n : Nat) (tunneling superconducting chemical_potential : R)
    (occupied_orbitals : List Nat) : QuantumCircuit R L :=
  { ops := .gaussianState (.bogoliubov (.kitaev n tunneling superconducting chemical_potential))
      occupied_orbitals
    metadata := none }

/-! ### Concrete instances used in witnesses and counterexamples -/

/-- A fresh experiment object over integer couplings and natural-number
labels, as built by `__init__` (empty cache, empty ghost logs). -/
def mkExp (qs : List Nat) (ts scs mus : List Int) (occs : List (List Nat)) :
    KitaevHamiltonianExperiment Int Nat :=
  { experiment_id := "exp"
    qubits := qs
    tunneling_values := ts
    superconducting_values := scs
    chemical_potential_values := mus
    occupied_orbitals_list := occs
    base_circuit_cache := ⟨[]⟩
    hamLog := []
    prepLog := [] }

/-- A one-element label enumeration. -/
def mps1 : Nat → List Nat := fun _ => [0]

/-- A two-element label enumeration. -/
def mps2 : Nat → List Nat := fun _ => [0, 1]

/-- A small well-formed experiment: one qubit, two tunneling values, two
occupation patterns, duplicate-free axes. -/
def expA : KitaevHamiltonianExperiment Int Nat := mkExp [0] [0, 1] [0] [0] [[], [0]]

/-- An experiment whose tunneling axis repeats a value. -/
def expDup : KitaevHamiltonianExperiment Int Nat := mkExp [0] [0, 0] [0] [0] [[]]

/-- An experiment sweeping 129 distinct occupation patterns on 129 modes:
one more than the `lru_cache` capacity. -/
def expBig : KitaevHamiltonianExperiment Int Nat :=
  mkExp (List.range 129) [0] [0] [0] ((List.range 129).map fun i => [i])

/-- A one-qubit experiment with a single coupling triple and two occupation
patterns. -/
def expTwoOcc : KitaevHamiltonianExperiment Int Nat := mkExp [0] [0] [0] [0] [[], [0]]

/-- A one-qubit experiment whose only occupation pattern is out of range. -/
def expBad : KitaevHamiltonianExperiment Int Nat := mkExp [0] [0] [0] [0] [[5]]

/-- A one-qubit experiment whose first occupation pattern is out of range
and whose second is valid. -/
def expMix : KitaevHamiltonianExperiment Int Nat := mkExp [0] [0] [0] [0] [[5], [0]]

/-! ### Lemmas about the LRU cache -/

namespace LruCache

variable {κ ν : Type} [DecidableEq κ]

theorem mem_keys_iff {c : LruCache κ ν} {k : κ} :
    k ∈ c.keys ↔ ∃ p ∈ c.entries, p.1 = k := by
  unfold keys
  simp [List.mem_map]

theorem lookup_of_not_mem {c : LruCache κ ν} {k : κ} (h : k ∉ c.keys) :
    c.lookup k = (none, c) := by
  unfold lookup
  rw [List.find?_eq_none.mpr]
  intro p hp
  simp only [decide_eq_true_eq]
  intro hpk
  exact h (mem_keys_iff.mpr ⟨p, hp, hpk⟩)

theorem lookup_of_mem {c : LruCache κ ν} {k : κ} (h : k ∈ c.keys) :
    ∃ v c2, c.lookup k = (some v, c2) ∧ c2.keys ⊆ k :: c.keys ∧ k ∈ c2.keys ∧
      c2.entries.length ≤ max 1 c.entries.length := by
  obtain ⟨p, hp, hpk⟩ := mem_keys_iff.mp h
  have hfind : (c.entries.find? (fun q => decide (q.1 = k))).isSome := by
    rw [List.find?_isSome]
    exact ⟨p, hp, by simp [hpk]⟩
  obtain ⟨q, hq⟩ := Option.isSome_iff_exists.mp hfind
  have hqmem : q ∈ c.entries := List.mem_of_find?_eq_some hq
  have hqk : q.1 = k := by
    have := List.find?_some hq
    simpa using this
  refine ⟨q.2, ⟨(k, q.2) :: c.entries.filter (fun p => decide (p.1 ≠ k))⟩, ?_, ?_, ?_, ?_⟩
  · unfold lookup
    rw [hq]
  · intro x hx
    unfold keys at hx ⊢
    simp only [List.map_cons, List.mem_cons] at hx ⊢
    rcases hx with h1 | h2
    · exact Or.inl h1
    · exact Or.inr (List.map_subset Prod.fst (fun a ha => List.mem_of_mem_filter ha) h2)
  · unfold keys
    simp
  · have hlt : (c.entries.filter (fun p => decide (p.1 ≠ k))).length < c.entries.length := by
      rw [List.length_filter_lt_length_iff_exists]
      exact ⟨q, hqmem, by simp [hqk]⟩
    simp only [List.length_cons]
    omega

theorem insert_keys_subset (c : LruCache κ ν) (k : κ) (v : ν) :
    (c.insert k v).keys ⊆ k :: c.keys := by
  intro x hx
  unfold insert keys at hx
  simp only [List.mem_map] at hx
  obtain ⟨p, hp, hpx⟩ := hx
  have hp2 : p ∈ (k, v) :: c.entries := List.take_subset _ _ hp
  rcases List.mem_cons.mp hp2 with h1 | h2
  · subst h1
    simp [hpx.symm]
  · exact List.mem_cons_of_mem _ (hpx ▸ List.mem_map_of_mem Prod.fst h2)

theorem take_lruMaxsize_cons (p : κ × ν) (l : List (κ × ν)) :
    ((p :: l).take lruMaxsize) = p :: l.take 127 := by
  have : lruMaxsize = 127 + 1 := by norm_num [lruMaxsize]
  rw [this, List.take_succ_cons]

theorem mem_insert_self (c : LruCache κ ν) (k : κ) (v : ν) : k ∈ (c.insert k v).keys := by
  unfold insert keys
  rw [take_lruMaxsize_cons]
  simp

theorem insert_length_le (c : LruCache κ ν) (k : κ) (v : ν) :
    (c.insert k v).entries.length ≤ lruMaxsize := by
  unfold insert
  simp [List.length_take]

end LruCache

/-! ### Lemmas about the experiment methods -/

namespace KitaevHamiltonianExperiment

variable {R L : Type} [DecidableEq R] [DecidableEq L]

theorem base_circuit_hit {e : KitaevHamiltonianExperiment R L} {t s m : R} {occ : List Nat}
    {v : QuantumCircuit R L} {c2 : LruCache (BaseKey R) (QuantumCircuit R L)}
    (h : e.base_circuit_cache.lookup (t, s, m, occ) = (some v, c2)) :
    e.base_circuit t s m occ = (.ok v, { e with base_circuit_cache := c2 }) := by
  unfold base_circuit
  rw [h]

theorem base_circuit_miss {e : KitaevHamiltonianExperiment R L} {t s m : R} {occ : List Nat}
    (hmiss : (t, s, m, occ) ∉ e.base_circuit_cache.keys)
    (hn : 1 ≤ e.n_modes) (hv : validOcc e.n_modes occ) :
    e.base_circuit t s m occ =
      (.ok (gaussCirc e.n_modes t s m occ),
       { e with hamLog := e.hamLog ++ [(t, s, m)]
                prepLog := e.prepLog ++ [(t, s, m, occ)]
                base_circuit_cache :=
                  e.base_circuit_cache.insert (t, s, m, occ) (gaussCirc e.n_modes t s m occ) }) := by
  have hk : (kitaev_hamiltonian e.n_modes t s m : Except (GenError R L) (HamiltonianMatrix R)) =
      .ok (.kitaev e.n_modes t s m) := by
    unfold kitaev_hamiltonian
    rw [if_neg (by omega)]
  have hfgs : (FermionicGaussianState (.bogoliubov (.kitaev e.n_modes t s m)) occ :
      Except (GenError R L) (QuantumCircuit R L)) = .ok (gaussCirc e.n_modes t s m occ) := by
    unfold FermionicGaussianState
    rw [if_pos]
    · rfl
    · simp only [Bool.and_eq_true, List.all_eq_true, decide_eq_true_eq]
      exact ⟨fun j hj => hv.1 j hj, hv.2⟩
  simp only [base_circuit, LruCache.lookup_of_not_mem hmiss, hk,
    diagonalizing_bogoliubov_transform, hfgs]

theorem base_circuit_config (e : KitaevHamiltonianExperiment R L) (t s m : R) (occ : List Nat) :
    ((e.base_circuit t s m occ).2).config = e.config := by
  unfold base_circuit
  split <;> (try split) <;> (try split) <;> (try split) <;> simp [config]

theorem generate_circuit_config (e : KitaevHamiltonianExperiment R L)
    (cp : CircuitParameters R L) : ((e.generate_circuit cp).2).config = e.config := by
  unfold generate_circuit
  split
  case _ err e1 heq =>
    have := base_circuit_config e cp.tunneling cp.superconducting cp.chemical_potential
      cp.occupied_orbitals
    rw [heq] at this
    exact this
  case _ base e1 heq =>
    have := base_circuit_config e cp.tunneling cp.superconducting cp.chemical_potential
      cp.occupied_orbitals
    rw [heq] at this
    split <;> exact this

theorem config_eq_iff {e1 e2 : KitaevHamiltonianExperiment R L} :
    e1.config = e2.config ↔
      e1.experiment_id = e2.experiment_id ∧ e1.qubits = e2.qubits ∧
      e1.tunneling_values = e2.tunneling_values ∧
      e1.superconducting_values = e2.superconducting_values ∧
      e1.chemical_potential_values = e2.chemical_potential_values ∧
      e1.occupied_orbitals_list = e2.occupied_orbitals_list := by
  unfold config
  simp [Prod.ext_iff]

theorem circuit_parameters_congr (mps : Nat → List L)
    {e1 e2 : KitaevHamiltonianExperiment R L} (h : e1.config = e2.config) :
    e1.circuit_parameters mps = e2.circuit_parameters mps := by
  obtain ⟨h1, h2, h3, h4, h5, h6⟩ := config_eq_iff.mp h
  unfold circuit_parameters n_modes
  rw [h2, h3, h4, h5, h6]

theorem runGen_config (e : KitaevHamiltonianExperiment R L)
    (ps : List (CircuitParameters R L)) : ((runGen e ps).2.2).config = e.config := by
  induction ps generalizing e with
  | nil => rfl
  | cons cp rest ih =>
    show ((runGen e (cp :: rest)).2.2).config = e.config
    unfold runGen
    rcases hg : e.generate_circuit cp with ⟨r, e1⟩
    have hcfg : e1.config = e.config := by
      have := generate_circuit_config e cp
      rw [hg] at this
      exact this
    cases r with
    | error err => simpa using hcfg
    | ok c => simpa using (hcfg ▸ ih e1)

end KitaevHamiltonianExperiment


namespace KitaevHamiltonianExperiment

variable {R L : Type} [DecidableEq R] [DecidableEq L]

theorem runGen_nil (e : KitaevHamiltonianExperiment R L) : runGen e [] = ([], none, e) := rfl

theorem runGen_cons (e : KitaevHamiltonianExperiment R L) (cp : CircuitParameters R L)
    (rest : List (CircuitParameters R L)) :
    runGen e (cp :: rest) =
      match e.generate_circuit cp with
      | (.error err, e1) => ([], some err, e1)
      | (.ok c, e1) =>
        match runGen e1 rest with
        | (ys, err, e2) => (c :: ys, err, e2) := rfl

theorem generate_circuit_ok_some {e e1 : KitaevHamiltonianExperiment R L}
    {cp : CircuitParameters R L} {c : QuantumCircuit R L}
    (h : e.generate_circuit cp = (.ok (some c), e1)) : c.metadata = some cp := by
  unfold generate_circuit at h
  split at h
  · simp at h
  · split at h
    · have := congrArg Prod.fst h
      simp at this
      rw [← this]
    · simp at h

theorem generate_circuit_ok_none {e e1 : KitaevHamiltonianExperiment R L}
    {cp : CircuitParameters R L}
    (h : e.generate_circuit cp = (.ok none, e1)) : cp.measurement_basis ≠ "pauli" := by
  unfold generate_circuit at h
  split at h
  · simp at h
  · split at h
    · simp at h
    · next hbasis => exact hbasis


end KitaevHamiltonianExperiment

namespace KitaevHamiltonianExperiment

variable {R L : Type} [DecidableEq R] [DecidableEq L]

theorem runGen_cons_error {e e1 : KitaevHamiltonianExperiment R L}
    {cp : CircuitParameters R L} {err : GenError R L}
    (h : e.generate_circuit cp = (.error err, e1)) (rest : List (CircuitParameters R L)) :
    runGen e (cp :: rest) = ([], some err, e1) := by
  rw [runGen_cons, h]

theorem runGen_cons_ok {e e1 : KitaevHamiltonianExperiment R L}
    {cp : CircuitParameters R L} {c : Option (QuantumCircuit R L)}
    (h : e.generate_circuit cp = (.ok c, e1)) (rest : List (CircuitParameters R L)) :
    runGen e (cp :: rest) =
      (c :: (runGen e1 rest).1, (runGen e1 rest).2.1, (runGen e1 rest).2.2) := by
  rw [runGen_cons, h]

theorem runGen_append_error {e : KitaevHamiltonianExperiment R L}
    {xs : List (CircuitParameters R L)} (ys : List (CircuitParameters R L))
    {err : GenError R L} (h : (runGen e xs).2.1 = some err) :
    runGen e (xs ++ ys) = runGen e xs := by
  induction xs generalizing e with
  | nil => rw [runGen_nil] at h; simp at h
  | cons cp rest ih =>
    rcases hg : e.generate_circuit cp with ⟨r, e1⟩
    cases r with
    | error err2 =>
      rw [List.cons_append, runGen_cons_error hg, runGen_cons_error hg]
    | ok c =>
      rw [runGen_cons_ok hg] at h
      simp only at h
      rw [List.cons_append, runGen_cons_ok hg, runGen_cons_ok hg, ih h]

theorem runGen_append_ok {e : KitaevHamiltonianExperiment R L}
    {xs : List (CircuitParameters R L)} (ys : List (CircuitParameters R L))
    (h : (runGen e xs).2.1 = none) :
    runGen e (xs ++ ys) =
      ((runGen e xs).1 ++ (runGen (runGen e xs).2.2 ys).1,
       (runGen (runGen e xs).2.2 ys).2.1, (runGen (runGen e xs).2.2 ys).2.2) := by
  induction xs generalizing e with
  | nil => simp [runGen_nil]
  | cons cp rest ih =>
    rcases hg : e.generate_circuit cp with ⟨r, e1⟩
    cases r with
    | error err2 =>
      rw [runGen_cons_error hg] at h
      simp at h
    | ok c =>
      rw [runGen_cons_ok hg] at h
      simp only at h
      rw [List.cons_append, runGen_cons_ok hg, runGen_cons_ok hg, ih h]
      simp

theorem runGen_length_le (e : KitaevHamiltonianExperiment R L)
    (ps : List (CircuitParameters R L)) : (runGen e ps).1.length ≤ ps.length := by
  induction ps generalizing e with
  | nil => simp [runGen_nil]
  | cons cp rest ih =>
    rcases hg : e.generate_circuit cp with ⟨r, e1⟩
    cases r with
    | error err => rw [runGen_cons_error hg]; simp
    | ok c =>
      rw [runGen_cons_ok hg]
      simpa using ih e1

theorem runGen_length_eq {e : KitaevHamiltonianExperiment R L}
    {ps : List (CircuitParameters R L)} (h : (runGen e ps).2.1 = none) :
    (runGen e ps).1.length = ps.length := by
  induction ps generalizing e with
  | nil => simp [runGen_nil]
  | cons cp rest ih =>
    rcases hg : e.generate_circuit cp with ⟨r, e1⟩
    cases r with
    | error err => rw [runGen_cons_error hg] at h; simp at h
    | ok c =>
      rw [runGen_cons_ok hg] at h
      simp only at h
      rw [runGen_cons_ok hg]
      simpa using ih h

theorem runGen_metadata (e : KitaevHamiltonianExperiment R L)
    (ps : List (CircuitParameters R L)) :
    ∀ (k : Nat) (c : QuantumCircuit R L),
      ((runGen e ps).1[k]? = some (some c)) → c.metadata = ps[k]? := by
  induction ps generalizing e with
  | nil => intro k c hc; rw [runGen_nil] at hc; simp at hc
  | cons cp rest ih =>
    intro k c hc
    rcases hg : e.generate_circuit cp with ⟨r, e1⟩
    cases r with
    | error err =>
      rw [runGen_cons_error hg] at hc
      simp at hc
    | ok y =>
      rw [runGen_cons_ok hg] at hc
      cases k with
      | zero =>
        simp at hc
        subst hc
        simpa using generate_circuit_ok_some hg
      | succ k1 =>
        simp only [List.getElem?_cons_succ] at hc ⊢
        exact ih e1 k1 c hc

theorem runGen_all_some {e : KitaevHamiltonianExperiment R L}
    {ps : List (CircuitParameters R L)}
    (hps : ∀ cp ∈ ps, cp.measurement_basis = "pauli") :
    ∀ y ∈ (runGen e ps).1, ∃ c, y = some c := by
  induction ps generalizing e with
  | nil => simp [runGen_nil]
  | cons cp rest ih =>
    intro y hy
    rcases hg : e.generate_circuit cp with ⟨r, e1⟩
    cases r with
    | error err =>
      rw [runGen_cons_error hg] at hy
      simp at hy
    | ok c1 =>
      rw [runGen_cons_ok hg] at hy
      simp at hy
      rcases hy with hy | hy
      · cases c1 with
        | none => exact absurd (hps cp (List.mem_cons_self cp rest)) (generate_circuit_ok_none hg)
        | some c0 => exact ⟨c0, hy⟩
      · exact ih (e := e1) (fun q hq => hps q (List.mem_cons_of_mem cp hq)) y hy

end KitaevHamiltonianExperiment

/-! ### Structure of the enumeration -/

theorem flatMap_uniform_length {α β : Type} (l : List α) (f : α → List β) (m : Nat)
    (h : ∀ a ∈ l, (f a).length = m) : (l.flatMap f).length = l.length * m := by
  induction l with
  | nil => simp
  | cons a l ih =>
    rw [List.flatMap_cons, List.length_append, h a (List.mem_cons_self a l),
      ih (fun b hb => h b (List.mem_cons_of_mem a hb))]
    simp [Nat.succ_mul]
    omega

theorem flatMap_uniform_getElem {α β : Type} (l : List α) (f : α → List β) (m : Nat)
    (h : ∀ a ∈ l, (f a).length = m) (i j : Nat) (hi : i < l.length) (hj : j < m) :
    (l.flatMap f)[m * i + j]? = (f (l.get ⟨i, hi⟩))[j]? := by
  induction l generalizing i with
  | nil => simp at hi
  | cons a l ih =>
    rw [List.flatMap_cons]
    cases i with
    | zero =>
      rw [List.getElem?_append_left]
      · simp
      · rw [h a (List.mem_cons_self a l)]
        omega
    | succ i1 =>
      rw [List.getElem?_append_right]
      · rw [h a (List.mem_cons_self a l)]
        have harith : m * (i1 + 1) + j - m = m * i1 + j := by ring_nf; omega
        rw [harith]
        have hi1 : i1 < l.length := by simpa using hi
        rw [ih (fun b hb => h b (List.mem_cons_of_mem a hb)) i1 hi1]
        rfl
      · rw [h a (List.mem_cons_self a l)]
        have : m * (i1 + 1) = m * i1 + m := by ring
        omega

theorem nodup_flatMap_fiber {α β : Type} (l : List α) (f : α → List β) (key : β → α)
    (hl : l.Nodup) (hf : ∀ a ∈ l, (f a).Nodup)
    (hk : ∀ a ∈ l, ∀ b ∈ f a, key b = a) : (l.flatMap f).Nodup := by
  induction l with
  | nil => simp
  | cons a l ih =>
    rw [List.flatMap_cons]
    rcases List.nodup_cons.mp hl with ⟨ha, hl2⟩
    refine List.Nodup.append (hf a (List.mem_cons_self a l))
      (ih hl2 (fun b hb => hf b (List.mem_cons_of_mem a hb))
        (fun b hb => hk b (List.mem_cons_of_mem a hb))) ?_
    intro b hb1 hb2
    rcases List.mem_flatMap.mp hb2 with ⟨a2, ha2, hb3⟩
    have e1 : key b = a := hk a (List.mem_cons_self a l) b hb1
    have e2 : key b = a2 := hk a2 (List.mem_cons_of_mem a ha2) b hb3
    exact ha (by rw [← e1.symm.trans e2] at ha2; exact ha2)

namespace KitaevHamiltonianExperiment

variable {R L : Type} [DecidableEq R] [DecidableEq L]

theorem circuit_parameters_eq (mps : Nat → List L) (e : KitaevHamiltonianExperiment R L) :
    e.circuit_parameters mps =
      (tupleList e).flatMap fun k => (mps e.n_modes).map (recOf k) := by
  unfold circuit_parameters tupleList recOf
  simp only [List.flatMap_assoc, List.flatMap_map]

end KitaevHamiltonianExperiment

namespace KitaevHamiltonianExperiment

variable {R L : Type} [DecidableEq R] [DecidableEq L]

theorem circuit_parameters_basis (mps : Nat → List L) (e : KitaevHamiltonianExperiment R L) :
    ∀ cp ∈ e.circuit_parameters mps, cp.measurement_basis = "pauli" := by
  intro cp h
  rw [circuit_parameters_eq] at h
  rcases List.mem_flatMap.mp h with ⟨k, hk, hcp⟩
  rcases List.mem_map.mp hcp with ⟨lab, hlab, hrec⟩
  rw [← hrec]
  rfl

theorem mem_tupleList {e : KitaevHamiltonianExperiment R L} {k : BaseKey R} :
    k ∈ tupleList e ↔
      k.1 ∈ e.tunneling_values ∧ k.2.1 ∈ e.superconducting_values ∧
      k.2.2.1 ∈ e.chemical_potential_values ∧ k.2.2.2 ∈ e.occupied_orbitals_list := by
  rcases k with ⟨a, b, c, d⟩
  constructor
  · intro h
    unfold tupleList at h
    rcases List.mem_flatMap.mp h with ⟨a1, ha1, h⟩
    rcases List.mem_flatMap.mp h with ⟨b1, hb1, h⟩
    rcases List.mem_flatMap.mp h with ⟨c1, hc1, h⟩
    rcases List.mem_map.mp h with ⟨d1, hd1, heq⟩
    obtain ⟨rfl, rfl, rfl, rfl⟩ : a1 = a ∧ b1 = b ∧ c1 = c ∧ d1 = d := by
      simpa [Prod.ext_iff] using heq
    exact ⟨ha1, hb1, hc1, hd1⟩
  · rintro ⟨ha, hb, hc, hd⟩
    unfold tupleList
    refine List.mem_flatMap.mpr ⟨a, ha, ?_⟩
    refine List.mem_flatMap.mpr ⟨b, hb, ?_⟩
    refine List.mem_flatMap.mpr ⟨c, hc, ?_⟩
    exact List.mem_map.mpr ⟨d, hd, rfl⟩

theorem mem_circuit_parameters (mps : Nat → List L) (e : KitaevHamiltonianExperiment R L)
    {k : BaseKey R} {lab : L} (hk : k ∈ tupleList e) (hlab : lab ∈ mps e.n_modes) :
    recOf k lab ∈ e.circuit_parameters mps := by
  rw [circuit_parameters_eq]
  exact List.mem_flatMap.mpr ⟨k, hk, List.mem_map.mpr ⟨lab, hlab, rfl⟩⟩

theorem circuit_parameters_mem_axes (mps : Nat → List L) (e : KitaevHamiltonianExperiment R L) :
    ∀ cp ∈ e.circuit_parameters mps,
      cp.tunneling ∈ e.tunneling_values ∧ cp.superconducting ∈ e.superconducting_values ∧
      cp.chemical_potential ∈ e.chemical_potential_values ∧
      cp.occupied_orbitals ∈ e.occupied_orbitals_list ∧
      cp.measurement_label ∈ mps e.n_modes ∧ cp.measurement_basis = "pauli" := by
  intro cp h
  rw [circuit_parameters_eq] at h
  rcases List.mem_flatMap.mp h with ⟨k, hk, hcp⟩
  rcases List.mem_map.mp hcp with ⟨lab, hlab, hrec⟩
  rcases mem_tupleList.mp hk with ⟨h1, h2, h3, h4⟩
  rw [← hrec]
  exact ⟨h1, h2, h3, h4, hlab, rfl⟩

theorem length_tupleList (e : KitaevHamiltonianExperiment R L) :
    (tupleList e).length =
      e.tunneling_values.length * (e.superconducting_values.length *
        (e.chemical_potential_values.length * e.occupied_orbitals_list.length)) := by
  unfold tupleList
  rw [flatMap_uniform_length _ _ (e.superconducting_values.length *
      (e.chemical_potential_values.length * e.occupied_orbitals_list.length))]
  intro a ha
  rw [flatMap_uniform_length _ _ (e.chemical_potential_values.length *
      e.occupied_orbitals_list.length)]
  intro b hb
  rw [flatMap_uniform_length _ _ e.occupied_orbitals_list.length]
  intro c hc
  exact List.length_map _ _

theorem length_circuit_parameters (mps : Nat → List L) (e : KitaevHamiltonianExperiment R L) :
    (e.circuit_parameters mps).length =
      e.tunneling_values.length * (e.superconducting_values.length *
        (e.chemical_potential_values.length *
          (e.occupied_orbitals_list.length * (mps e.n_modes).length))) := by
  rw [circuit_parameters_eq,
    flatMap_uniform_length _ _ (mps e.n_modes).length (fun k _ => List.length_map _ _),
    length_tupleList]
  ring

theorem nodup_tupleList {e : KitaevHamiltonianExperiment R L}
    (h1 : e.tunneling_values.Nodup) (h2 : e.superconducting_values.Nodup)
    (h3 : e.chemical_potential_values.Nodup) (h4 : e.occupied_orbitals_list.Nodup) :
    (tupleList e).Nodup := by
  unfold tupleList
  refine nodup_flatMap_fiber _ _ Prod.fst h1 ?_ ?_
  · intro a ha
    refine nodup_flatMap_fiber _ _ (fun k => k.2.1) h2 ?_ ?_
    · intro b hb
      refine nodup_flatMap_fiber _ _ (fun k => k.2.2.1) h3 ?_ ?_
      · intro c hc
        exact h4.map (fun d1 d2 hd => by simpa [Prod.ext_iff] using hd)
      · intro c hc k hk
        rcases List.mem_map.mp hk with ⟨d, hd, hrec⟩
        rw [← hrec]
    · intro b hb k hk
      rcases List.mem_flatMap.mp hk with ⟨c, hc, hk2⟩
      rcases List.mem_map.mp hk2 with ⟨d, hd, hrec⟩
      rw [← hrec]
  · intro a ha k hk
    rcases List.mem_flatMap.mp hk with ⟨b, hb, hk2⟩
    rcases List.mem_flatMap.mp hk2 with ⟨c, hc, hk3⟩
    rcases List.mem_map.mp hk3 with ⟨d, hd, hrec⟩
    rw [← hrec]

theorem nodup_circuit_parameters (mps : Nat → List L) (e : KitaevHamiltonianExperiment R L)
    (h1 : e.tunneling_values.Nodup) (h2 : e.superconducting_values.Nodup)
    (h3 : e.chemical_potential_values.Nodup) (h4 : e.occupied_orbitals_list.Nodup)
    (h5 : (mps e.n_modes).Nodup) : (e.circuit_parameters mps).Nodup := by
  rw [circuit_parameters_eq]
  refine nodup_flatMap_fiber _ _ CircuitParameters.key (nodup_tupleList h1 h2 h3 h4) ?_ ?_
  · intro k hk
    refine h5.map ?_
    intro l1 l2 h
    exact congrArg CircuitParameters.measurement_label h
  · intro k hk cp hcp
    rcases List.mem_map.mp hcp with ⟨lab, hlab, hrec⟩
    rw [← hrec]
    rcases k with ⟨a, b, c, d⟩
    rfl

end KitaevHamiltonianExperiment

/-! ### Cache behaviour along a generation sweep -/

namespace KitaevHamiltonianExperiment

variable {R L : Type} [DecidableEq R] [DecidableEq L]

theorem generate_circuit_recOf_hit {e : KitaevHamiltonianExperiment R L} {k : BaseKey R}
    (lab : L) {v : QuantumCircuit R L} {c2 : LruCache (BaseKey R) (QuantumCircuit R L)}
    (h : e.base_circuit_cache.lookup k = (some v, c2)) :
    e.generate_circuit (recOf k lab) =
      (.ok (some { measure_pauli_string v lab with metadata := some (recOf k lab) }),
       { e with base_circuit_cache := c2 }) := by
  rcases k with ⟨t, s, m, occ⟩
  have hb := base_circuit_hit (e := e) (h := h)
  simp only [generate_circuit, recOf, hb]
  rfl

theorem generate_circuit_recOf_miss {e : KitaevHamiltonianExperiment R L} {k : BaseKey R}
    (lab : L) (hmiss : k ∉ e.base_circuit_cache.keys) (hn : 1 ≤ e.n_modes)
    (hv : validOcc e.n_modes (occOf k)) :
    e.generate_circuit (recOf k lab) =
      (.ok (some { measure_pauli_string (gaussCirc e.n_modes k.1 k.2.1 k.2.2.1 k.2.2.2) lab with
             metadata := some (recOf k lab) }),
       { e with hamLog := e.hamLog ++ [tripleOf k]
                prepLog := e.prepLog ++ [k]
                base_circuit_cache := e.base_circuit_cache.insert k
                  (gaussCirc e.n_modes k.1 k.2.1 k.2.2.1 k.2.2.2) }) := by
  rcases k with ⟨t, s, m, occ⟩
  have hb := base_circuit_miss (e := e) hmiss hn hv
  simp only [generate_circuit, recOf, tripleOf, hb]
  rfl

end KitaevHamiltonianExperiment

namespace KitaevHamiltonianExperiment

variable {R L : Type} [DecidableEq R] [DecidableEq L]

theorem runGen_block_hit {e : KitaevHamiltonianExperiment R L} {k : BaseKey R} (ls : List L)
    (hk : k ∈ e.base_circuit_cache.keys)
    (hlen : e.base_circuit_cache.entries.length ≤ lruMaxsize) :
    ∃ c2, runGen e (ls.map (recOf k)) =
      ((runGen e (ls.map (recOf k))).1, none, { e with base_circuit_cache := c2 }) ∧
      c2.keys ⊆ k :: e.base_circuit_cache.keys ∧ k ∈ c2.keys ∧
      c2.entries.length ≤ lruMaxsize := by
  induction ls generalizing e with
  | nil =>
    exact ⟨e.base_circuit_cache, rfl, fun x hx => List.mem_cons_of_mem k hx, hk, hlen⟩
  | cons l ls ih =>
    obtain ⟨v, c2, hlkp, hsub, hmem, hlen2⟩ := LruCache.lookup_of_mem hk
    have hlen2b : c2.entries.length ≤ lruMaxsize := by
      have h1 : (1 : Nat) ≤ lruMaxsize := by norm_num [lruMaxsize]
      omega
    have hg := generate_circuit_recOf_hit l hlkp
    obtain ⟨c3, hrun, hsub3, hmem3, hlen3⟩ :=
      ih (e := { e with base_circuit_cache := c2 }) hmem hlen2b
    refine ⟨c3, ?_, ?_, hmem3, hlen3⟩
    · rw [List.map_cons, runGen_cons_ok hg, hrun]
    · intro x hx
      rcases List.mem_cons.mp (hsub3 hx) with h1 | h2
      · exact h1 ▸ List.mem_cons_self k _
      · rcases List.mem_cons.mp (hsub h2) with h3 | h4
        · exact h3 ▸ List.mem_cons_self k _
        · exact List.mem_cons_of_mem k h4

theorem runGen_block_miss {e : KitaevHamiltonianExperiment R L} {k : BaseKey R}
    (l : L) (ls : List L) (hmiss : k ∉ e.base_circuit_cache.keys) (hn : 1 ≤ e.n_modes)
    (hv : validOcc e.n_modes (occOf k)) :
    ∃ c2, runGen e ((l :: ls).map (recOf k)) =
      ((runGen e ((l :: ls).map (recOf k))).1, none,
       { e with hamLog := e.hamLog ++ [tripleOf k]
                prepLog := e.prepLog ++ [k]
                base_circuit_cache := c2 }) ∧
      c2.keys ⊆ k :: e.base_circuit_cache.keys ∧ k ∈ c2.keys ∧
      c2.entries.length ≤ lruMaxsize := by
  have hg := generate_circuit_recOf_miss l hmiss hn hv
  have hmem1 : k ∈ (e.base_circuit_cache.insert k
      (gaussCirc e.n_modes k.1 k.2.1 k.2.2.1 k.2.2.2)).keys :=
    LruCache.mem_insert_self _ k _
  have hlen1 : (e.base_circuit_cache.insert k
      (gaussCirc e.n_modes k.1 k.2.1 k.2.2.1 k.2.2.2)).entries.length ≤ lruMaxsize :=
    LruCache.insert_length_le _ k _
  obtain ⟨c2, hrun, hsub, hmem, hlen⟩ := runGen_block_hit (e :=
    { e with hamLog := e.hamLog ++ [tripleOf k]
             prepLog := e.prepLog ++ [k]
             base_circuit_cache := e.base_circuit_cache.insert k
               (gaussCirc e.n_modes k.1 k.2.1 k.2.2.1 k.2.2.2) }) ls hmem1 hlen1
  refine ⟨c2, ?_, ?_, hmem, hlen⟩
  · rw [List.map_cons, runGen_cons_ok hg, hrun]
  · intro x hx
    rcases List.mem_cons.mp (hsub hx) with h1 | h2
    · exact h1 ▸ List.mem_cons_self k _
    · rcases List.mem_cons.mp (LruCache.insert_keys_subset _ k _ h2) with h3 | h4
      · exact h3 ▸ List.mem_cons_self k _
      · exact List.mem_cons_of_mem k h4

end KitaevHamiltonianExperiment

namespace KitaevHamiltonianExperiment

variable {R L : Type} [DecidableEq R] [DecidableEq L]

theorem runGen_sweep {e : KitaevHamiltonianExperiment R L} (ks : List (BaseKey R)) (ls : List L)
    (hls : ls ≠ []) (hn : 1 ≤ e.n_modes)
    (hv : ∀ k ∈ ks, validOcc e.n_modes (occOf k))
    (hnd : ks.Nodup)
    (hfresh : ∀ k ∈ ks, k ∉ e.base_circuit_cache.keys)
    (hlen : e.base_circuit_cache.entries.length ≤ lruMaxsize) :
    ∃ c2, runGen e (ks.flatMap fun k => ls.map (recOf k)) =
      ((runGen e (ks.flatMap fun k => ls.map (recOf k))).1, none,
       { e with hamLog := e.hamLog ++ ks.map tripleOf
                prepLog := e.prepLog ++ ks
                base_circuit_cache := c2 }) ∧
      (∀ x ∈ c2.keys, x ∈ ks ∨ x ∈ e.base_circuit_cache.keys) ∧
      c2.entries.length ≤ lruMaxsize := by
  induction ks generalizing e with
  | nil =>
    refine ⟨e.base_circuit_cache, ?_, ?_, hlen⟩
    · simp [runGen_nil]
    · intro x hx
      exact Or.inr hx
  | cons k ks ih =>
    rcases ls with _ | ⟨l, ls1⟩
    · exact absurd rfl hls
    obtain ⟨c2, hrun1, hsub1, hmem1, hlen1⟩ :=
      runGen_block_miss (e := e) l ls1 (hfresh k (List.mem_cons_self k ks)) hn
        (hv k (List.mem_cons_self k ks))
    have h0 : (runGen e ((l :: ls1).map (recOf k))).2.1 = none := by rw [hrun1]
    have happ := @runGen_append_ok R L _ _ e ((l :: ls1).map (recOf k))
      (ks.flatMap fun k2 => (l :: ls1).map (recOf k2)) h0
    have hnd2 := List.nodup_cons.mp hnd
    obtain ⟨c3, hrun2, hsub2, hlen3⟩ :=
      ih (e := { e with hamLog := e.hamLog ++ [tripleOf k]
                        prepLog := e.prepLog ++ [k]
                        base_circuit_cache := c2 })
        (by exact hn)
        (fun k2 hk2 => hv k2 (List.mem_cons_of_mem k hk2))
        hnd2.2
        (by
          intro k2 hk2 hk2mem
          rcases List.mem_cons.mp (hsub1 hk2mem) with h1 | h2
          · exact hnd2.1 (h1 ▸ hk2)
          · exact hfresh k2 (List.mem_cons_of_mem k hk2) h2)
        hlen1
    refine ⟨c3, ?_, ?_, hlen3⟩
    · rw [List.flatMap_cons, happ, hrun1, hrun2]
      simp [List.append_assoc]
    · intro x hx
      rcases hsub2 x hx with h1 | h2
      · exact Or.inl (List.mem_cons_of_mem k h1)
      · rcases List.mem_cons.mp (hsub1 h2) with h3 | h4
        · exact Or.inl (h3 ▸ List.mem_cons_self k ks)
        · exact Or.inr h4

end KitaevHamiltonianExperiment

namespace KitaevHamiltonianExperiment

variable {R L : Type} [DecidableEq R] [DecidableEq L]

theorem circuits_of_none {mps : Nat → List L} {e : KitaevHamiltonianExperiment R L}
    (h : (runGen e (e.circuit_parameters mps)).2.1 = none) :
    e.circuits mps = (.ok (runGen e (e.circuit_parameters mps)).1,
      (runGen e (e.circuit_parameters mps)).2.2) := by
  have hp : runGen e (e.circuit_parameters mps) =
      ((runGen e (e.circuit_parameters mps)).1, none,
       (runGen e (e.circuit_parameters mps)).2.2) := by
    rw [← h]
  unfold circuits
  rw [hp]

theorem circuits_of_some {mps : Nat → List L} {e : KitaevHamiltonianExperiment R L}
    {err : GenError R L} (h : (runGen e (e.circuit_parameters mps)).2.1 = some err) :
    e.circuits mps = (.error err, (runGen e (e.circuit_parameters mps)).2.2) := by
  have hp : runGen e (e.circuit_parameters mps) =
      ((runGen e (e.circuit_parameters mps)).1, some err,
       (runGen e (e.circuit_parameters mps)).2.2) := by
    rw [← h]
  unfold circuits
  rw [hp]

theorem circuits_sweep (mps : Nat → List L) (e : KitaevHamiltonianExperiment R L)
    (hls : mps e.n_modes ≠ []) (hn : 1 ≤ e.n_modes)
    (hv : ∀ occ ∈ e.occupied_orbitals_list, validOcc e.n_modes occ)
    (h1 : e.tunneling_values.Nodup) (h2 : e.superconducting_values.Nodup)
    (h3 : e.chemical_potential_values.Nodup) (h4 : e.occupied_orbitals_list.Nodup)
    (hcache : e.base_circuit_cache.entries = []) :
    ∃ ys c2, e.circuits mps =
      (.ok ys,
       { e with hamLog := e.hamLog ++ (tupleList e).map tripleOf
                prepLog := e.prepLog ++ tupleList e
                base_circuit_cache := c2 }) ∧
      c2.entries.length ≤ lruMaxsize := by
  have hkeys : e.base_circuit_cache.keys = [] := by
    unfold LruCache.keys
    rw [hcache]
    rfl
  obtain ⟨c2, hrun, hsub, hlen⟩ := runGen_sweep (e := e) (tupleList e) (mps e.n_modes) hls hn
    (fun k hk => hv k.2.2.2 (mem_tupleList.mp hk).2.2.2)
    (nodup_tupleList h1 h2 h3 h4)
    (fun k _ => by rw [hkeys]; exact List.not_mem_nil k)
    (by rw [hcache]; norm_num [lruMaxsize])
  have hrun2 : (runGen e (e.circuit_parameters mps)).2.1 = none := by
    rw [circuit_parameters_eq, hrun]
  refine ⟨(runGen e (e.circuit_parameters mps)).1, c2, ?_, hlen⟩
  rw [circuits_of_none hrun2]
  rw [circuit_parameters_eq, hrun]

end KitaevHamiltonianExperiment

namespace KitaevHamiltonianExperiment

variable {R L : Type} [DecidableEq R] [DecidableEq L]

theorem runGen_error_spec {e : KitaevHamiltonianExperiment R L}
    {ps : List (CircuitParameters R L)} {err : GenError R L}
    (h : (runGen e ps).2.1 = some err) :
    ∃ j, ∃ hj : j < ps.length,
      (runGen e ps).1.length = j ∧
      (runGen e (ps.take j)).2.1 = none ∧
      (((runGen e (ps.take j)).2.2).generate_circuit (ps.get ⟨j, hj⟩)).1 = .error err := by
  induction ps generalizing e with
  | nil => rw [runGen_nil] at h; simp at h
  | cons cp rest ih =>
    rcases hg : e.generate_circuit cp with ⟨r, e1⟩
    cases r with
    | error err2 =>
      rw [runGen_cons_error hg rest] at h
      simp only [Option.some.injEq] at h
      refine ⟨0, by simp, ?_, ?_, ?_⟩
      · simp [runGen_cons_error hg rest]
      · rw [List.take_zero, runGen_nil]
      · rw [List.take_zero, runGen_nil]
        show (e.generate_circuit cp).1 = .error err
        rw [hg, h]
    | ok c =>
      rw [runGen_cons_ok hg rest] at h
      simp only at h
      obtain ⟨j1, hj1, hlen, hnone, hgen⟩ := ih (e := e1) h
      refine ⟨j1 + 1, by simp only [List.length_cons]; omega, ?_, ?_, ?_⟩
      · rw [runGen_cons_ok hg rest]
        simpa using hlen
      · rw [List.take_succ_cons, runGen_cons_ok hg]
        simpa using hnone
      · rw [List.take_succ_cons, runGen_cons_ok hg]
        simpa using hgen

theorem circuits_snd (mps : Nat → List L) (e : KitaevHamiltonianExperiment R L) :
    (e.circuits mps).2 = (runGen e (e.circuit_parameters mps)).2.2 := by
  cases her : (runGen e (e.circuit_parameters mps)).2.1 with
  | none => rw [circuits_of_none her]
  | some err => rw [circuits_of_some her]

theorem circuits_ok_inv {mps : Nat → List L} {e e2 : KitaevHamiltonianExperiment R L}
    {ys : List (Option (QuantumCircuit R L))} (h : e.circuits mps = (.ok ys, e2)) :
    (runGen e (e.circuit_parameters mps)).1 = ys ∧
    (runGen e (e.circuit_parameters mps)).2.1 = none ∧
    (runGen e (e.circuit_parameters mps)).2.2 = e2 := by
  cases her : (runGen e (e.circuit_parameters mps)).2.1 with
  | none =>
    rw [circuits_of_none her] at h
    have h1 := congrArg Prod.fst h
    have h2 := congrArg Prod.snd h
    simp at h1 h2
    exact ⟨h1, rfl, h2⟩
  | some err =>
    rw [circuits_of_some her] at h
    have h1 := congrArg Prod.fst h
    simp at h1

end KitaevHamiltonianExperiment

/-! ### Mixed-radix index arithmetic -/

theorem mixed_radix_lt {i a j b : Nat} (hi : i < a) (hj : j < b) : b * i + j < a * b := by
  calc b * i + j < b * i + b := by omega
    _ = b * (i + 1) := by ring
    _ ≤ b * a := Nat.mul_le_mul_left b hi
    _ = a * b := Nat.mul_comm b a

/-! ### The claims -/

open KitaevHamiltonianExperiment

/-- C9: parameter enumeration is restartable and side-effect free: generation
(partial or complete, through `_circuits` runs or the public `circuits()`)
never mutates the constructor-set axes or qubit list, so any two
`circuit_parameters()` calls on the instance yield identical sequences. -/
theorem c9_parameter_enumeration_pure {R L : Type} [DecidableEq R] [DecidableEq L]
    (mps : Nat → List L) (e : KitaevHamiltonianExperiment R L)
    (ps : List (CircuitParameters R L)) :
    ((runGen e ps).2.2).qubits = e.qubits ∧
    ((runGen e ps).2.2).tunneling_values = e.tunneling_values ∧
    ((runGen e ps).2.2).superconducting_values = e.superconducting_values ∧
    ((runGen e ps).2.2).chemical_potential_values = e.chemical_potential_values ∧
    ((runGen e ps).2.2).occupied_orbitals_list = e.occupied_orbitals_list ∧
    ((runGen e ps).2.2).circuit_parameters mps = e.circuit_parameters mps ∧
    ((e.circuits mps).2).circuit_parameters mps = e.circuit_parameters mps := by
  have hcfg := runGen_config e ps
  obtain ⟨hid, hq, ht, hs, hm, ho⟩ := config_eq_iff.mp hcfg
  refine ⟨hq, ht, hs, hm, ho, circuit_parameters_congr mps hcfg, ?_⟩
  rw [circuits_snd]
  exact circuit_parameters_congr mps (runGen_config e (e.circuit_parameters mps))

/-- C10: every record yielded by `circuit_parameters()` has measurement basis
`"pauli"`, so the fall-through branch of `_generate_circuit` is never taken
from the generation pipeline and every yielded element is an actual circuit
(never the absent value `None`). -/
theorem c10_basis_always_pauli {R L : Type} [DecidableEq R] [DecidableEq L]
    (mps : Nat → List L) (e : KitaevHamiltonianExperiment R L) :
    (∀ cp ∈ e.circuit_parameters mps, cp.measurement_basis = "pauli") ∧
    (∀ y ∈ (runGen e (e.circuit_parameters mps)).1, ∃ c, y = some c) ∧
    (∀ ys e2, e.circuits mps = (.ok ys, e2) → ∀ y ∈ ys, ∃ c, y = some c) := by
  refine ⟨circuit_parameters_basis mps e,
    runGen_all_some (circuit_parameters_basis mps e), ?_⟩
  intro ys e2 h y hy
  obtain ⟨h1, -, -⟩ := circuits_ok_inv h
  exact runGen_all_some (circuit_parameters_basis mps e) y (by rw [h1]; exact hy)

/-- Witness for C10 at a concrete engine. -/
theorem c10_witness :
    (recOf ((0 : Int), (0 : Int), (0 : Int), ([] : List Nat)) (0 : Nat) ∈
      expA.circuit_parameters mps2) ∧
    (recOf ((0 : Int), (0 : Int), (0 : Int), ([] : List Nat)) (0 : Nat)).measurement_basis =
      "pauli" :=
  ⟨by decide, (c10_basis_always_pauli mps2 expA).1 _ (by decide)⟩

/-- C8: when the public `circuits()` call succeeds, it emits exactly one
circuit per enumerated record, and the metadata attached to the k-th emitted
circuit is exactly the k-th record of the enumerator. -/
theorem c8_circuit_provenance {R L : Type} [DecidableEq R] [DecidableEq L]
    (mps : Nat → List L) (e e2 : KitaevHamiltonianExperiment R L)
    (ys : List (Option (QuantumCircuit R L))) (h : e.circuits mps = (.ok ys, e2)) :
    ys.length = (e.circuit_parameters mps).length ∧
    ∀ (k : Nat) (c : QuantumCircuit R L), ys[k]? = some (some c) →
      c.metadata = (e.circuit_parameters mps)[k]? := by
  obtain ⟨h1, h2, h3⟩ := circuits_ok_inv h
  constructor
  · rw [← h1]
    exact runGen_length_eq h2
  · intro k c hc
    exact runGen_metadata e _ k c (by rw [h1]; exact hc)

/-- Witness for C8 at a concrete engine. -/
theorem c8_witness :
    expTwoOcc.circuits mps1 =
      (.ok (((expTwoOcc.circuits mps1).1).toOption.getD []), (expTwoOcc.circuits mps1).2) ∧
    (((expTwoOcc.circuits mps1).1).toOption.getD []).length =
      (expTwoOcc.circuit_parameters mps1).length := by
  have h : expTwoOcc.circuits mps1 =
      (.ok (((expTwoOcc.circuits mps1).1).toOption.getD []), (expTwoOcc.circuits mps1).2) := by
    decide
  exact ⟨h, (c8_circuit_provenance mps1 expTwoOcc _ _ h).1⟩

/-- C3 (code bug per the design notes of the spec): a parameter record whose
measurement basis is not the recognized kind `"pauli"` makes
`_generate_circuit` fall off the end of the function and silently return
`None`; no `InvalidLabelError` (nor any exception) is raised. -/
theorem c3_unrecognized_basis_silently_returns_none :
    (expA.generate_circuit
      { tunneling := 0, superconducting := 0, chemical_potential := 0,
        occupied_orbitals := [], measurement_basis := "bogus",
        measurement_label := 0 }).1 = .ok none := by decide

/-- C7 amended: generation is lazy and sequential: consuming the first
records of the generator processes only those records, and once a record
fails every later record is never processed (hence not retrievable through
the generation interface). -/
theorem c7_lazy_and_failure_stop {R L : Type} [DecidableEq R] [DecidableEq L]
    (e : KitaevHamiltonianExperiment R L) (xs ys : List (CircuitParameters R L)) :
    ((runGen e xs).2.1 = none →
      runGen e (xs ++ ys) =
        ((runGen e xs).1 ++ (runGen (runGen e xs).2.2 ys).1,
         (runGen (runGen e xs).2.2 ys).2.1, (runGen (runGen e xs).2.2 ys).2.2)) ∧
    (∀ err : GenError R L, (runGen e xs).2.1 = some err → runGen e (xs ++ ys) = runGen e xs) :=
  ⟨fun h => runGen_append_ok ys h, fun _ h => runGen_append_error ys h⟩

/-- Witness for C7 at a concrete engine: the first record of `expMix` fails,
and appending the remaining records changes nothing. -/
theorem c7_witness :
    (runGen expMix ((expMix.circuit_parameters mps1).take 1)).2.1 =
      some (GenError.invalidOccupation [5] 1) ∧
    runGen expMix
        (((expMix.circuit_parameters mps1).take 1) ++ ((expMix.circuit_parameters mps1).drop 1)) =
      runGen expMix ((expMix.circuit_parameters mps1).take 1) :=
  ⟨by decide, (c7_lazy_and_failure_stop expMix _ _).2
    (GenError.invalidOccupation [5] 1) (by decide)⟩

/-- C7 counterexample: in `expMix` the invalid record precedes a valid one;
the valid record is enumerated, yet every consumption of the generation
interface (partial or the full `circuits()` call) raises at the invalid
record first and never yields any circuit, so the valid record is not
retrievable through the public generation interface. -/
theorem c7_post_failure_unretrievable_counterexample :
    recOf ((0 : Int), (0 : Int), (0 : Int), [0]) (0 : Nat) ∈
      expMix.circuit_parameters mps1 ∧
    validOcc expMix.n_modes [0] ∧
    (expMix.circuits mps1).1 = .error (GenError.invalidOccupation [5] 1) ∧
    (runGen expMix ((expMix.circuit_parameters mps1).take 1)).1 = [] ∧
    (runGen expMix (expMix.circuit_parameters mps1)).1 = [] := by
  refine ⟨by decide, by decide, by decide, by decide, by decide⟩

/-- C6 amended: any component failure propagates unchanged: the public
`circuits()` call raises exactly the error value produced by the first
failing `_generate_circuit` invocation, after yielding exactly the circuits
that precede it; nothing is retried or skipped.  (No annotation with the
offending record is applied; see the counterexample.) -/
theorem c6_error_propagates_unchanged {R L : Type} [DecidableEq R] [DecidableEq L]
    (mps : Nat → List L) (e : KitaevHamiltonianExperiment R L) {err : GenError R L}
    (h : (runGen e (e.circuit_parameters mps)).2.1 = some err) :
    e.circuits mps = (.error err, (runGen e (e.circuit_parameters mps)).2.2) ∧
    ∃ j, ∃ hj : j < (e.circuit_parameters mps).length,
      (runGen e (e.circuit_parameters mps)).1.length = j ∧
      (runGen e ((e.circuit_parameters mps).take j)).2.1 = none ∧
      (((runGen e ((e.circuit_parameters mps).take j)).2.2).generate_circuit
        ((e.circuit_parameters mps).get ⟨j, hj⟩)).1 = .error err :=
  ⟨circuits_of_some h, runGen_error_spec h⟩

/-- Witness for C6 at a concrete engine. -/
theorem c6_witness :
    (runGen expBad (expBad.circuit_parameters mps1)).2.1 =
      some (GenError.invalidOccupation [5] 1) ∧
    expBad.circuits mps1 =
      (.error (GenError.invalidOccupation [5] 1),
       (runGen expBad (expBad.circuit_parameters mps1)).2.2) :=
  ⟨by decide, (c6_error_propagates_unchanged mps1 expBad (by decide)).1⟩

/-- C6 counterexample: two distinct records of the same sweep (they differ
in the measurement label) fail with literally identical error values; the
error therefore does not carry (is not annotated with) the exact offending
CircuitParameters record, contradicting the claim. -/
theorem c6_error_without_record_counterexample :
    recOf ((0 : Int), (0 : Int), (0 : Int), [5]) (0 : Nat) ∈
      expBad.circuit_parameters mps2 ∧
    recOf ((0 : Int), (0 : Int), (0 : Int), [5]) (1 : Nat) ∈
      expBad.circuit_parameters mps2 ∧
    recOf ((0 : Int), (0 : Int), (0 : Int), [5]) (0 : Nat) ≠
      recOf ((0 : Int), (0 : Int), (0 : Int), [5]) (1 : Nat) ∧
    (expBad.generate_circuit (recOf ((0 : Int), (0 : Int), (0 : Int), [5]) (0 : Nat))).1 =
      .error (GenError.invalidOccupation [5] 1) ∧
    (expBad.generate_circuit (recOf ((0 : Int), (0 : Int), (0 : Int), [5]) (1 : Nat))).1 =
      .error (GenError.invalidOccupation [5] 1) := by
  refine ⟨by decide, by decide, by decide, by decide, by decide⟩

/-- Indexing of the four-axis cross product: the tuple at Horner-form flat
index `((i1*|SC| + i2)*|MU| + i3)*|OCC| + i4` is built from the given axis
positions. -/
theorem tupleList_getElem {R L : Type} [DecidableEq R] [DecidableEq L]
    (e : KitaevHamiltonianExperiment R L) (i1 i2 i3 i4 : Nat)
    (hi1 : i1 < e.tunneling_values.length)
    (hi2 : i2 < e.superconducting_values.length)
    (hi3 : i3 < e.chemical_potential_values.length)
    (hi4 : i4 < e.occupied_orbitals_list.length) :
    (tupleList e)[((i1 * e.superconducting_values.length + i2) *
        e.chemical_potential_values.length + i3) * e.occupied_orbitals_list.length + i4]? =
      some (e.tunneling_values.get ⟨i1, hi1⟩, e.superconducting_values.get ⟨i2, hi2⟩,
        e.chemical_potential_values.get ⟨i3, hi3⟩,
        e.occupied_orbitals_list.get ⟨i4, hi4⟩) := by
  have hb3 : e.occupied_orbitals_list.length * i3 + i4 <
      e.chemical_potential_values.length * e.occupied_orbitals_list.length :=
    mixed_radix_lt hi3 hi4
  have hb2 : (e.chemical_potential_values.length * e.occupied_orbitals_list.length) * i2 +
      (e.occupied_orbitals_list.length * i3 + i4) <
      e.superconducting_values.length *
        (e.chemical_potential_values.length * e.occupied_orbitals_list.length) :=
    mixed_radix_lt hi2 hb3
  have harith : ((i1 * e.superconducting_values.length + i2) *
      e.chemical_potential_values.length + i3) * e.occupied_orbitals_list.length + i4 =
      (e.superconducting_values.length *
        (e.chemical_potential_values.length * e.occupied_orbitals_list.length)) * i1 +
      ((e.chemical_potential_values.length * e.occupied_orbitals_list.length) * i2 +
        (e.occupied_orbitals_list.length * i3 + i4)) := by ring
  unfold tupleList
  rw [harith]
  rw [flatMap_uniform_getElem _ _ (e.superconducting_values.length *
      (e.chemical_potential_values.length * e.occupied_orbitals_list.length))
      (fun a _ => flatMap_uniform_length _ _ _
        (fun b _ => flatMap_uniform_length _ _ _ (fun c _ => List.length_map _ _)))
      i1 _ hi1 hb2]
  rw [flatMap_uniform_getElem _ _ (e.chemical_potential_values.length *
      e.occupied_orbitals_list.length)
      (fun b _ => flatMap_uniform_length _ _ _ (fun c _ => List.length_map _ _))
      i2 _ hi2 hb3]
  rw [flatMap_uniform_getElem _ _ e.occupied_orbitals_list.length
      (fun c _ => List.length_map _ _) i3 _ hi3 hi4]
  rw [List.getElem?_map]
  simp [List.getElem?_eq_getElem hi4]

/-- C4: the enumeration is produced in the fixed deterministic outer-to-inner
nesting order tunneling, superconducting, chemical potential, occupied
orbitals, measurement label (label varying fastest): the record at flat index
`(((i1*|SC| + i2)*|MU| + i3)*|OCC| + i4)*|LAB| + i5` is built from the axis
elements at positions `i1..i5`; and an error-free run of the generator
yields exactly one circuit per record, in this order. -/
theorem c4_enumeration_order {R L : Type} [DecidableEq R] [DecidableEq L]
    (mps : Nat → List L) (e : KitaevHamiltonianExperiment R L)
    (i1 i2 i3 i4 i5 : Nat)
    (hi1 : i1 < e.tunneling_values.length)
    (hi2 : i2 < e.superconducting_values.length)
    (hi3 : i3 < e.chemical_potential_values.length)
    (hi4 : i4 < e.occupied_orbitals_list.length)
    (hi5 : i5 < (mps e.n_modes).length) :
    (e.circuit_parameters mps)[(((i1 * e.superconducting_values.length + i2) *
        e.chemical_potential_values.length + i3) * e.occupied_orbitals_list.length + i4) *
        (mps e.n_modes).length + i5]? =
      some (recOf (e.tunneling_values.get ⟨i1, hi1⟩, e.superconducting_values.get ⟨i2, hi2⟩,
        e.chemical_potential_values.get ⟨i3, hi3⟩, e.occupied_orbitals_list.get ⟨i4, hi4⟩)
        ((mps e.n_modes).get ⟨i5, hi5⟩)) ∧
    ((runGen e (e.circuit_parameters mps)).2.1 = none →
      (runGen e (e.circuit_parameters mps)).1.length = (e.circuit_parameters mps).length) := by
  refine ⟨?_, fun h => runGen_length_eq h⟩
  have hb3 : e.occupied_orbitals_list.length * i3 + i4 <
      e.chemical_potential_values.length * e.occupied_orbitals_list.length :=
    mixed_radix_lt hi3 hi4
  have hb2 : (e.chemical_potential_values.length * e.occupied_orbitals_list.length) * i2 +
      (e.occupied_orbitals_list.length * i3 + i4) <
      e.superconducting_values.length *
        (e.chemical_potential_values.length * e.occupied_orbitals_list.length) :=
    mixed_radix_lt hi2 hb3
  have hq : ((i1 * e.superconducting_values.length + i2) *
      e.chemical_potential_values.length + i3) * e.occupied_orbitals_list.length + i4 <
      (tupleList e).length := by
    rw [length_tupleList]
    have harith : ((i1 * e.superconducting_values.length + i2) *
        e.chemical_potential_values.length + i3) * e.occupied_orbitals_list.length + i4 =
        (e.superconducting_values.length *
          (e.chemical_potential_values.length * e.occupied_orbitals_list.length)) * i1 +
        ((e.chemical_potential_values.length * e.occupied_orbitals_list.length) * i2 +
          (e.occupied_orbitals_list.length * i3 + i4)) := by ring
    rw [harith]
    exact mixed_radix_lt hi1 hb2
  have harith2 : (((i1 * e.superconducting_values.length + i2) *
      e.chemical_potential_values.length + i3) * e.occupied_orbitals_list.length + i4) *
      (mps e.n_modes).length + i5 =
      (mps e.n_modes).length * (((i1 * e.superconducting_values.length + i2) *
        e.chemical_potential_values.length + i3) * e.occupied_orbitals_list.length + i4) +
      i5 := by ring
  rw [circuit_parameters_eq, harith2]
  rw [flatMap_uniform_getElem _ _ (mps e.n_modes).length
      (fun k _ => List.length_map _ _) _ i5 hq hi5]
  have hgetq : (tupleList e).get ⟨((i1 * e.superconducting_values.length + i2) *
      e.chemical_potential_values.length + i3) * e.occupied_orbitals_list.length + i4, hq⟩ =
      (e.tunneling_values.get ⟨i1, hi1⟩, e.superconducting_values.get ⟨i2, hi2⟩,
       e.chemical_potential_values.get ⟨i3, hi3⟩,
       e.occupied_orbitals_list.get ⟨i4, hi4⟩) := by
    have h := tupleList_getElem e i1 i2 i3 i4 hi1 hi2 hi3 hi4
    rw [List.getElem?_eq_getElem hq] at h
    simpa using h
  rw [hgetq, List.getElem?_map]
  simp [List.getElem?_eq_getElem hi5]

/-- Witness for C4 at a concrete engine: index `(1, 0, 0, 1, 1)` of `expA`
with two labels lands at flat position 7, the last record. -/
theorem c4_witness :
    1 < expA.tunneling_values.length ∧ 1 < (mps2 expA.n_modes).length ∧
    (expA.circuit_parameters mps2)[(((1 * expA.superconducting_values.length + 0) *
        expA.chemical_potential_values.length + 0) * expA.occupied_orbitals_list.length + 1) *
        (mps2 expA.n_modes).length + 1]? =
      some (recOf ((1 : Int), (0 : Int), (0 : Int), [0]) (1 : Nat)) := by
  have h := c4_enumeration_order mps2 expA 1 0 0 1 1 (by decide) (by decide) (by decide)
    (by decide) (by decide)
  refine ⟨by decide, by decide, ?_⟩
  have h1 := h.1
  simpa using h1

/-- C1 amended: for every engine, the parameter enumeration contains exactly
`|tunneling| * |superconducting| * |chemical_potential| * |occupied_orbitals_list| * |labels(n)|`
records (sequence lengths, counting any repeats), unconditionally; whenever
the public `circuits()` call completes without error, it emits exactly one
circuit per record, hence exactly that many circuits; when additionally the
configured axis sequences and the label enumeration are duplicate-free, the
records are pairwise distinct and are exactly the cross-product of the axes
with the label set (full coverage, no extras, basis always `"pauli"`). -/
theorem c1_cross_product_enumeration {R L : Type} [DecidableEq R] [DecidableEq L]
    (mps : Nat → List L) (e : KitaevHamiltonianExperiment R L) :
    (e.circuit_parameters mps).length =
      e.tunneling_values.length * (e.superconducting_values.length *
        (e.chemical_potential_values.length *
          (e.occupied_orbitals_list.length * (mps e.n_modes).length))) ∧
    (∀ (ys : List (Option (QuantumCircuit R L))) (e2 : KitaevHamiltonianExperiment R L),
      e.circuits mps = (.ok ys, e2) →
      ys.length =
        e.tunneling_values.length * (e.superconducting_values.length *
          (e.chemical_potential_values.length *
            (e.occupied_orbitals_list.length * (mps e.n_modes).length)))) ∧
    (e.tunneling_values.Nodup → e.superconducting_values.Nodup →
      e.chemical_potential_values.Nodup → e.occupied_orbitals_list.Nodup →
      (mps e.n_modes).Nodup →
      (e.circuit_parameters mps).Nodup ∧
      (∀ t ∈ e.tunneling_values, ∀ s ∈ e.superconducting_values,
        ∀ m ∈ e.chemical_potential_values, ∀ occ ∈ e.occupied_orbitals_list,
        ∀ lab ∈ mps e.n_modes, recOf (t, s, m, occ) lab ∈ e.circuit_parameters mps) ∧
      (∀ cp ∈ e.circuit_parameters mps,
        cp.tunneling ∈ e.tunneling_values ∧ cp.superconducting ∈ e.superconducting_values ∧
        cp.chemical_potential ∈ e.chemical_potential_values ∧
        cp.occupied_orbitals ∈ e.occupied_orbitals_list ∧
        cp.measurement_label ∈ mps e.n_modes ∧ cp.measurement_basis = "pauli")) := by
  refine ⟨length_circuit_parameters mps e, ?_, ?_⟩
  · intro ys e2 h
    obtain ⟨hys, hnone, -⟩ := circuits_ok_inv h
    rw [← hys, runGen_length_eq hnone]
    exact length_circuit_parameters mps e
  · intro h1 h2 h3 h4 h5
    refine ⟨nodup_circuit_parameters mps e h1 h2 h3 h4 h5, ?_,
      circuit_parameters_mem_axes mps e⟩
    intro t ht s hs m hm occ hocc lab hlab
    exact mem_circuit_parameters mps e (mem_tupleList.mpr ⟨ht, hs, hm, hocc⟩) hlab

/-- Witness for C1 at a concrete engine: the unconditional record count, the
circuit count of a completed `circuits()` call, and the duplicate-free
conclusions with their hypotheses discharged. -/
theorem c1_witness :
    expA.tunneling_values.Nodup ∧ (mps2 expA.n_modes).Nodup ∧
    expA.circuits mps2 =
      (.ok (((expA.circuits mps2).1).toOption.getD []), (expA.circuits mps2).2) ∧
    (expA.circuit_parameters mps2).length =
      expA.tunneling_values.length * (expA.superconducting_values.length *
        (expA.chemical_potential_values.length *
          (expA.occupied_orbitals_list.length * (mps2 expA.n_modes).length))) ∧
    (((expA.circuits mps2).1).toOption.getD []).length =
      expA.tunneling_values.length * (expA.superconducting_values.length *
        (expA.chemical_potential_values.length *
          (expA.occupied_orbitals_list.length * (mps2 expA.n_modes).length))) ∧
    (expA.circuit_parameters mps2).Nodup := by
  have h := c1_cross_product_enumeration mps2 expA
  have hok : expA.circuits mps2 =
      (.ok (((expA.circuits mps2).1).toOption.getD []), (expA.circuits mps2).2) := by
    decide
  exact ⟨by decide, by decide, hok, h.1, h.2.1 _ _ hok,
    (h.2.2 (by decide) (by decide) (by decide) (by decide) (by decide)).1⟩

/-- C1 counterexample: an engine with non-empty axes whose tunneling axis
repeats a value.  The circuit count still equals the product of the sequence
lengths, but the parameter records are not pairwise distinct, contradicting
the claim as stated for every engine with non-empty axes. -/
theorem c1_duplicate_axes_counterexample :
    expDup.tunneling_values ≠ [] ∧ expDup.superconducting_values ≠ [] ∧
    expDup.chemical_potential_values ≠ [] ∧ expDup.occupied_orbitals_list ≠ [] ∧
    mps1 expDup.n_modes ≠ [] ∧
    (expDup.circuit_parameters mps1).length =
      expDup.tunneling_values.length * (expDup.superconducting_values.length *
        (expDup.chemical_potential_values.length *
          (expDup.occupied_orbitals_list.length * (mps1 expDup.n_modes).length))) ∧
    ¬ (expDup.circuit_parameters mps1).Nodup := by
  refine ⟨by decide, by decide, by decide, by decide, by decide, by decide, by decide⟩

/-- C2 amended: within one `circuits()` pass of an engine whose cache starts
empty and whose axes are duplicate-free, the state preparer runs exactly
once per distinct `(tunneling, superconducting, chemical_potential,
occupied_orbitals)` tuple (in first-occurrence order, however many labels
request the tuple), and the `lru_cache` never holds more than its CPython
bound of 128 entries. -/
theorem c2_base_circuit_cached_per_tuple {R L : Type} [DecidableEq R] [DecidableEq L]
    (mps : Nat → List L) (e : KitaevHamiltonianExperiment R L)
    (hls : mps e.n_modes ≠ []) (hn : 1 ≤ e.n_modes)
    (hv : ∀ occ ∈ e.occupied_orbitals_list, validOcc e.n_modes occ)
    (h1 : e.tunneling_values.Nodup) (h2 : e.superconducting_values.Nodup)
    (h3 : e.chemical_potential_values.Nodup) (h4 : e.occupied_orbitals_list.Nodup)
    (hcache : e.base_circuit_cache.entries = []) (hlog : e.prepLog = []) :
    ((e.circuits mps).2).prepLog = tupleList e ∧
    (tupleList e).Nodup ∧
    ((e.circuits mps).2).base_circuit_cache.entries.length ≤ lruMaxsize := by
  obtain ⟨ys, c2, heq, hlen⟩ := circuits_sweep mps e hls hn hv h1 h2 h3 h4 hcache
  have h2nd := congrArg Prod.snd heq
  refine ⟨?_, nodup_tupleList h1 h2 h3 h4, ?_⟩
  · rw [h2nd]
    simp [hlog]
  · rw [h2nd]
    simpa using hlen

/-- Witness for C2 at a concrete engine. -/
theorem c2_witness :
    1 ≤ expA.n_modes ∧ expA.base_circuit_cache.entries = [] ∧
    ((expA.circuits mps2).2).prepLog = tupleList expA ∧
    ((expA.circuits mps2).2).base_circuit_cache.entries.length ≤ lruMaxsize := by
  have h := c2_base_circuit_cached_per_tuple mps2 expA (by decide) (by decide) (by decide)
    (by decide) (by decide) (by decide) (by decide) rfl rfl
  exact ⟨by decide, rfl, h.1, h.2.2⟩

/-- C5 amended: the Hamiltonian construction and its diagonalizing
transformation run once per `_base_circuit` cache miss, that is once per
distinct `(tunneling, superconducting, chemical_potential,
occupied_orbitals)` 4-tuple of a clean duplicate-free pass, not once per
coupling triple. -/
theorem c5_hamiltonian_once_per_tuple {R L : Type} [DecidableEq R] [DecidableEq L]
    (mps : Nat → List L) (e : KitaevHamiltonianExperiment R L)
    (hls : mps e.n_modes ≠ []) (hn : 1 ≤ e.n_modes)
    (hv : ∀ occ ∈ e.occupied_orbitals_list, validOcc e.n_modes occ)
    (h1 : e.tunneling_values.Nodup) (h2 : e.superconducting_values.Nodup)
    (h3 : e.chemical_potential_values.Nodup) (h4 : e.occupied_orbitals_list.Nodup)
    (hcache : e.base_circuit_cache.entries = []) (hlogH : e.hamLog = []) :
    ((e.circuits mps).2).hamLog = (tupleList e).map tripleOf ∧
    (tupleList e).Nodup := by
  obtain ⟨ys, c2, heq, hlen⟩ := circuits_sweep mps e hls hn hv h1 h2 h3 h4 hcache
  have h2nd := congrArg Prod.snd heq
  refine ⟨?_, nodup_tupleList h1 h2 h3 h4⟩
  rw [h2nd]
  simp [hlogH]

/-- Witness for C5 at a concrete engine. -/
theorem c5_witness :
    1 ≤ expA.n_modes ∧ expA.base_circuit_cache.entries = [] ∧
    ((expA.circuits mps2).2).hamLog = (tupleList expA).map tripleOf := by
  have h := c5_hamiltonian_once_per_tuple mps2 expA (by decide) (by decide) (by decide)
    (by decide) (by decide) (by decide) (by decide) rfl rfl
  exact ⟨by decide, rfl, h.1⟩

/-- C5 counterexample: an engine with a single coupling triple and two
occupation patterns.  One `circuits()` call invokes the Hamiltonian builder
and the Bogoliubov diagonalization twice for that one distinct triple (once
per occupation pattern), contradicting "exactly once per distinct coupling
triple". -/
theorem c5_transform_per_occupation_counterexample :
    expTwoOcc.occupied_orbitals_list.length = 2 ∧
    ((expTwoOcc.circuits mps1).2).hamLog.count ((0 : Int), (0 : Int), (0 : Int)) = 2 := by
  refine ⟨by decide, by decide⟩

set_option maxRecDepth 100000 in
set_option maxHeartbeats 4000000 in
/-- C2 counterexample: `expBig` sweeps 129 distinct occupation tuples, one
more than the CPython `lru_cache` default capacity of 128.  After one full
`circuits()` pass the cache holds only 128 entries (the least recently used
entry was evicted, so the cache is neither unbounded nor eviction-free), and
when the same engine instance starts a second pass (its first record asks
again for the tuple `(0, 0, 0, [0])`), the state preparer runs a second time
for that single distinct tuple — its invocation count over the instance
lifetime is 2, contradicting "computed at most once per distinct tuple". -/
theorem c2_lru_eviction_counterexample :
    ((0 : Int), (0 : Int), (0 : Int), [0]) ∈ tupleList expBig ∧
    (expBig.circuits mps1).2.base_circuit_cache.entries.length = lruMaxsize ∧
    ((runGen (expBig.circuits mps1).2
        ((expBig.circuit_parameters mps1).take 1)).2.2).prepLog.count
      ((0 : Int), (0 : Int), (0 : Int), [0]) = 2 := by
  refine ⟨by decide, by decide, by decide⟩
